import Mathlib

/-!
Verification of the block-buffering digest trait layer (`digest` crate):
`Update`/`FixedOutput`/`VariableOutput`/`ExtendableOutput` traits from
`src/digest/src/lib.rs`, the core-level traits from
`src/digest/src/core_api.rs`, and the wrapper components those modules
declare (`CoreWrapper`, `RtVariableCoreWrapper`, `XofReaderCoreWrapper`,
MAC composition), modelled from the specification where the wrapper
source files are not present in the tree.

Bytes are modelled as `List Nat`; algorithm cores are abstract state
types `σ` together with their block-update and finalize functions, so
every theorem is parametric in the concrete algorithm, exactly as the
trait layer is.
-/

namespace DigestTraits

/-- Byte strings: the `&[u8]` slices consumed by `Update::update` and
produced by the finalize functions. -/
abbrev Bytes := List Nat

/-- Modelled from the spec: the dispatch loop of `BlockBuffer.ingest`
(`block-buffer` crate / spec section 4.1; the buffer implementation is not
under `src/`). Greedily splits `data` into full blocks of size `bs`,
feeding each completed block to the core block-update function `upd`
(`UpdateCore::update_blocks`), and returns the final core state together
with the leftover tail (`< bs` bytes) that stays pending in the buffer. -/
def feedBlocks {σ : Type} (bs : Nat) (upd : σ → Bytes → σ) (c : σ) (data : Bytes) :
    σ × Bytes :=
  if _h : 0 < bs ∧ bs ≤ data.length then
    feedBlocks bs upd (upd c (data.take bs)) (data.drop bs)
  else
    (c, data)
termination_by data.length
decreasing_by
  simp only [List.length_drop]
  omega

/-- Modelled from the spec: the state of `CoreWrapper` (spec section 4.2;
`core_api/wrapper.rs` is not under `src/`): the algorithm core state plus
the pending partial block of the `BlockBuffer`. -/
structure CoreWrapper (σ : Type) where
  core : σ
  buffer : Bytes

/-- Modelled from the spec: `CoreWrapper`'s `Update::update` (spec
section 4.2): forwards `data` through `BlockBuffer.ingest` into the
core's block-update function; completed blocks are dispatched, the tail
stays pending. -/
def CoreWrapper.update {σ : Type} (bs : Nat) (upd : σ → Bytes → σ)
    (s : CoreWrapper σ) (data : Bytes) : CoreWrapper σ :=
  let r := feedBlocks bs upd s.core (s.buffer ++ data)
  ⟨r.1, r.2⟩

/-- Modelled from the spec: `CoreWrapper`'s finalize (spec section 4.2):
`BlockBuffer.finalize` pads the pending partial block and hands it to the
core's finalize function; `fin` is that composite, an arbitrary function
of the core state and the pending bytes. -/
def CoreWrapper.finalize {σ ω : Type} (fin : σ → Bytes → ω) (s : CoreWrapper σ) : ω :=
  fin s.core s.buffer

theorem feedBlocks_append {σ : Type} (bs : Nat) (upd : σ → Bytes → σ)
    (c : σ) (x y : Bytes) :
    feedBlocks bs upd c (x ++ y) =
      feedBlocks bs upd (feedBlocks bs upd c x).1 ((feedBlocks bs upd c x).2 ++ y) := by
  generalize hn : x.length = n
  induction n using Nat.strong_induction_on generalizing x c with
  | _ n ih =>
    by_cases h : 0 < bs ∧ bs ≤ x.length
    · have hx : feedBlocks bs upd c x =
          feedBlocks bs upd (upd c (x.take bs)) (x.drop bs) := by
        rw [feedBlocks]
        simp [h]
      have hxy : feedBlocks bs upd c (x ++ y) =
          feedBlocks bs upd (upd c (x.take bs)) (x.drop bs ++ y) := by
        rw [feedBlocks]
        have hc : 0 < bs ∧ bs ≤ (x ++ y).length := by
          constructor
          · exact h.1
          · simp only [List.length_append]
            omega
        rw [dif_pos hc, List.take_append_of_le_length h.2,
          List.drop_append_of_le_length h.2]
      rw [hxy, hx]
      exact ih (x.drop bs).length (by simp only [List.length_drop]; omega)
        (upd c (x.take bs)) (x.drop bs) rfl
    · have hx : feedBlocks bs upd c x = (c, x) := by
        rw [feedBlocks]
        simp [h]
      rw [hx]

theorem feedBlocks_rem_lt {σ : Type} (bs : Nat) (upd : σ → Bytes → σ)
    (c : σ) (data : Bytes) (hbs : 0 < bs) :
    (feedBlocks bs upd c data).2.length < bs := by
  generalize hn : data.length = n
  induction n using Nat.strong_induction_on generalizing data c with
  | _ n ih =>
    rw [feedBlocks]
    by_cases h : 0 < bs ∧ bs ≤ data.length
    · rw [dif_pos h]
      exact ih (data.drop bs).length (by simp only [List.length_drop]; omega)
        (upd c (data.take bs)) (data.drop bs) rfl
    · rw [dif_neg h]
      show data.length < bs
      omega

theorem update_append {σ : Type} (bs : Nat) (upd : σ → Bytes → σ)
    (s : CoreWrapper σ) (a b : Bytes) :
    CoreWrapper.update bs upd s (a ++ b) =
      CoreWrapper.update bs upd (CoreWrapper.update bs upd s a) b := by
  simp only [CoreWrapper.update]
  rw [← List.append_assoc, feedBlocks_append bs upd s.core (s.buffer ++ a) b]

theorem update_buffer_inv {σ : Type} (bs : Nat) (upd : σ → Bytes → σ)
    (s : CoreWrapper σ) (d : Bytes) :
    bs = 0 ∨ (CoreWrapper.update bs upd s d).buffer.length < bs := by
  rcases Nat.eq_zero_or_pos bs with h | h
  · exact Or.inl h
  · exact Or.inr (feedBlocks_rem_lt bs upd s.core (s.buffer ++ d) h)

theorem update_nil {σ : Type} (bs : Nat) (upd : σ → Bytes → σ)
    (s : CoreWrapper σ) (hs : bs = 0 ∨ s.buffer.length < bs) :
    CoreWrapper.update bs upd s [] = s := by
  simp only [CoreWrapper.update, List.append_nil]
  rw [feedBlocks]
  have h : ¬ (0 < bs ∧ bs ≤ s.buffer.length) := by omega
  rw [dif_neg h]

theorem foldl_update {σ : Type} (bs : Nat) (upd : σ → Bytes → σ)
    (chunks : List Bytes) :
    ∀ s : CoreWrapper σ, bs = 0 ∨ s.buffer.length < bs →
      List.foldl (CoreWrapper.update bs upd) s chunks =
        CoreWrapper.update bs upd s chunks.flatten := by
  induction chunks with
  | nil =>
    intro s hs
    rw [List.foldl_nil, List.flatten_nil, update_nil bs upd s hs]
  | cons c rest ih =>
    intro s hs
    rw [List.foldl_cons, ih _ (update_buffer_inv bs upd s c), List.flatten_cons,
      update_append]

/-- Claim C1: for every hasher built from a block-level core (any block size
`bs`, block-update function `upd`, finalize function `fin`) and every input,
feeding the input through any sequence of `update` calls whose concatenation
equals the full input yields a `finalize` result identical to feeding the
whole input in one `update` call. The state `s` satisfies the `BlockBuffer`
invariant (pending length `< bs`), which holds for every reachable state. -/
theorem claim_C1_streaming_invariant {σ ω : Type} (bs : Nat) (upd : σ → Bytes → σ)
    (fin : σ → Bytes → ω) (s : CoreWrapper σ) (chunks : List Bytes) (input : Bytes)
    (hs : bs = 0 ∨ s.buffer.length < bs) (h : chunks.flatten = input) :
    CoreWrapper.finalize fin (List.foldl (CoreWrapper.update bs upd) s chunks) =
      CoreWrapper.finalize fin (CoreWrapper.update bs upd s input) := by
  subst h
  rw [foldl_update bs upd chunks s hs]

/-- Witness for claim C1: block size 2, a concatenating toy core, input
`[1, 2, 3]` split as `[1] ++ [2, 3] ++ []`. -/
theorem claim_C1_witness :
    CoreWrapper.finalize (fun (c p : Bytes) => c ++ p)
        (List.foldl (CoreWrapper.update 2 (fun (c b : Bytes) => c ++ b)) ⟨[], []⟩
          [[1], [2, 3], []]) =
      CoreWrapper.finalize (fun (c p : Bytes) => c ++ p)
        (CoreWrapper.update 2 (fun (c b : Bytes) => c ++ b) ⟨[], []⟩ [1, 2, 3]) :=
  claim_C1_streaming_invariant 2 _ _ ⟨[], []⟩ [[1], [2, 3], []] [1, 2, 3]
    (Or.inr (by decide)) rfl

/-- Error type for variable hasher initialization, from
`src/digest/src/lib.rs` (`pub struct InvalidOutputSize;`). -/
structure InvalidOutputSize where
deriving DecidableEq, Repr

/-- Modelled from the spec: the state of `RtVariableCoreWrapper` (spec
section 4.4; `core_api/rt_variable.rs` is not under `src/`): core state,
pending buffer, and the construction-time `output_size`. -/
structure RtVariableCoreWrapper (σ : Type) where
  core : σ
  buffer : Bytes
  output_size : Nat

namespace RtVariableCoreWrapper

/-- Modelled from the spec: `RtVariableCoreWrapper::new(output_size)`
(spec section 4.4 and the `VariableOutputCore::new` contract in
`src/digest/src/core_api.rs`): fails with `InvalidOutputSize` unless
`1 ≤ output_size ≤ MaxOutputSize`; on success stores `output_size`
alongside a fresh core and an empty buffer. -/
def new {σ : Type} (maxOutputSize : Nat) (initCore : σ) (output_size : Nat) :
    Except InvalidOutputSize (RtVariableCoreWrapper σ) :=
  if output_size = 0 ∨ maxOutputSize < output_size then
    Except.error ⟨⟩
  else
    Except.ok ⟨initCore, [], output_size⟩

/-- Modelled from the spec: `Update::update` for `RtVariableCoreWrapper`:
same `BlockBuffer.ingest` dispatch as `CoreWrapper.update`; the stored
`output_size` is untouched. -/
def update {σ : Type} (bs : Nat) (upd : σ → Bytes → σ)
    (s : RtVariableCoreWrapper σ) (data : Bytes) : RtVariableCoreWrapper σ :=
  let r := feedBlocks bs upd s.core (s.buffer ++ data)
  ⟨r.1, r.2, s.output_size⟩

/-- Modelled from the spec: `finalize_variable(self, f)` (spec section
4.4): `BlockBuffer.finalize` then the core's
`VariableOutputCore::finalize_variable_core`, which invokes `f` exactly
once with the digest slice for the stored `output_size`. `vfin` is the
core's finalize function: core state, pending bytes and requested size to
the slice handed to the callback. -/
def finalizeVariable {σ α : Type} (vfin : σ → Bytes → Nat → Bytes)
    (s : RtVariableCoreWrapper σ) (f : Bytes → α) : α :=
  f (vfin s.core s.buffer s.output_size)

/-- Modelled from the spec: `finalize_variable_reset(&mut self, f)` (spec
section 4.4): same as `finalizeVariable`, then resets buffer and core to
their freshly-constructed state while preserving `output_size`. -/
def finalizeVariableReset {σ α : Type} (vfin : σ → Bytes → Nat → Bytes)
    (initCore : σ) (s : RtVariableCoreWrapper σ) (f : Bytes → α) :
    α × RtVariableCoreWrapper σ :=
  (f (vfin s.core s.buffer s.output_size), ⟨initCore, [], s.output_size⟩)

/-- Instrumentation of `finalizeVariable`: run it with a callback that
records its argument, so the result is the list of byte slices the
callback was invoked with, in order. -/
def finalizeVariableCalls {σ : Type} (vfin : σ → Bytes → Nat → Bytes)
    (s : RtVariableCoreWrapper σ) : List Bytes :=
  finalizeVariable vfin s (fun out => [out])

/-- Instrumentation of `finalizeVariableReset`: the list of byte slices
its callback is invoked with, in order. -/
def finalizeVariableResetCalls {σ : Type} (vfin : σ → Bytes → Nat → Bytes)
    (initCore : σ) (s : RtVariableCoreWrapper σ) : List Bytes :=
  (finalizeVariableReset vfin initCore s (fun out => [out])).1

end RtVariableCoreWrapper

/-- Claim C2: `VariableOutput::new(output_size)` returns
`Err(InvalidOutputSize)` exactly when `output_size = 0` or
`output_size > MAX_OUTPUT_SIZE` (no instance is created on failure), and
returns a constructed hasher storing `output_size` for every size in
`[1, MAX_OUTPUT_SIZE]`. -/
theorem claim_C2_rt_new {σ : Type} (maxOutputSize : Nat) (initCore : σ) (k : Nat) :
    (RtVariableCoreWrapper.new maxOutputSize initCore k =
        Except.error ⟨⟩ ↔ (k = 0 ∨ maxOutputSize < k)) ∧
    (RtVariableCoreWrapper.new maxOutputSize initCore k =
        Except.ok ⟨initCore, [], k⟩ ↔ (1 ≤ k ∧ k ≤ maxOutputSize)) := by
  unfold RtVariableCoreWrapper.new
  by_cases h : k = 0 ∨ maxOutputSize < k
  · rw [if_pos h]
    constructor
    · simp [h]
    · constructor
      · intro hc
        exact absurd hc (by simp)
      · intro hc
        omega
  · rw [if_neg h]
    constructor
    · constructor
      · intro hc
        exact absurd hc (by simp)
      · intro hc
        exact absurd hc h
    · simp
      omega

theorem rt_update_output_size {σ : Type} (bs : Nat) (upd : σ → Bytes → σ)
    (s : RtVariableCoreWrapper σ) (d : Bytes) :
    (RtVariableCoreWrapper.update bs upd s d).output_size = s.output_size := rfl

theorem rt_foldl_output_size {σ : Type} (bs : Nat) (upd : σ → Bytes → σ)
    (chunks : List Bytes) :
    ∀ s : RtVariableCoreWrapper σ,
      (List.foldl (RtVariableCoreWrapper.update bs upd) s chunks).output_size =
        s.output_size := by
  induction chunks with
  | nil => intro s; rfl
  | cons c rest ih =>
    intro s
    rw [List.foldl_cons, ih (RtVariableCoreWrapper.update bs upd s c),
      rt_update_output_size]

/-- Claim C3: for every variable-output hasher constructed with `new(k)` for
valid `k`, and after any sequence of updates, `finalize_variable` and
`finalize_variable_reset` invoke their callback exactly once, with a byte
slice whose length is exactly `k`, the construction-time output size. The
hypothesis `hlen` is the documented `VariableOutputCore::finalize_variable_core`
contract (`src/digest/src/core_api.rs`): the slice handed to the closure has
the requested length. -/
theorem claim_C3_finalize_variable_callback {σ : Type} (bs : Nat)
    (upd : σ → Bytes → σ) (vfin : σ → Bytes → Nat → Bytes)
    (maxOutputSize : Nat) (initCore : σ) (k : Nat)
    (s₀ : RtVariableCoreWrapper σ)
    (hlen : ∀ c b n, (vfin c b n).length = n)
    (hnew : RtVariableCoreWrapper.new maxOutputSize initCore k = Except.ok s₀)
    (chunks : List Bytes) :
    (RtVariableCoreWrapper.finalizeVariableCalls vfin
        (List.foldl (RtVariableCoreWrapper.update bs upd) s₀ chunks)).length = 1 ∧
    (∀ out ∈ RtVariableCoreWrapper.finalizeVariableCalls vfin
        (List.foldl (RtVariableCoreWrapper.update bs upd) s₀ chunks),
      out.length = k) ∧
    (RtVariableCoreWrapper.finalizeVariableResetCalls vfin initCore
        (List.foldl (RtVariableCoreWrapper.update bs upd) s₀ chunks)).length = 1 ∧
    (∀ out ∈ RtVariableCoreWrapper.finalizeVariableResetCalls vfin initCore
        (List.foldl (RtVariableCoreWrapper.update bs upd) s₀ chunks),
      out.length = k) := by
  have hsize : s₀.output_size = k := by
    unfold RtVariableCoreWrapper.new at hnew
    by_cases h : k = 0 ∨ maxOutputSize < k
    · rw [if_pos h] at hnew
      exact absurd hnew (by simp)
    · rw [if_neg h] at hnew
      have := Except.ok.inj hnew
      rw [← this]
  have hfold : (List.foldl (RtVariableCoreWrapper.update bs upd) s₀ chunks).output_size = k := by
    rw [rt_foldl_output_size, hsize]
  refine ⟨rfl, ?_, rfl, ?_⟩
  · intro out hout
    simp only [RtVariableCoreWrapper.finalizeVariableCalls,
      RtVariableCoreWrapper.finalizeVariable, List.mem_singleton] at hout
    rw [hout, hlen, hfold]
  · intro out hout
    simp only [RtVariableCoreWrapper.finalizeVariableResetCalls,
      RtVariableCoreWrapper.finalizeVariableReset, List.mem_singleton] at hout
    rw [hout, hlen, hfold]

/-- Witness for claim C3: max size 4, `new 3` on a toy core whose variable
finalize hands the callback the first `n` bytes of an infinite zero digest. -/
theorem claim_C3_witness :
    (∀ c b n, ((fun (_ : Unit) (_ : Bytes) (n : Nat) => List.replicate n 7) c b n).length = n) ∧
    (RtVariableCoreWrapper.new 4 () 3 = Except.ok ⟨(), [], 3⟩) ∧
    ((RtVariableCoreWrapper.finalizeVariableCalls
        (fun (_ : Unit) (_ : Bytes) (n : Nat) => List.replicate n 7)
        (List.foldl (RtVariableCoreWrapper.update 2 (fun c _ => c)) ⟨(), [], 3⟩
          [[1], [2, 3]])).length = 1 ∧
      (∀ out ∈ RtVariableCoreWrapper.finalizeVariableCalls
          (fun (_ : Unit) (_ : Bytes) (n : Nat) => List.replicate n 7)
          (List.foldl (RtVariableCoreWrapper.update 2 (fun c _ => c)) ⟨(), [], 3⟩
            [[1], [2, 3]]),
        out.length = 3) ∧
      (RtVariableCoreWrapper.finalizeVariableResetCalls
          (fun (_ : Unit) (_ : Bytes) (n : Nat) => List.replicate n 7) ()
          (List.foldl (RtVariableCoreWrapper.update 2 (fun c _ => c)) ⟨(), [], 3⟩
            [[1], [2, 3]])).length = 1 ∧
      (∀ out ∈ RtVariableCoreWrapper.finalizeVariableResetCalls
          (fun (_ : Unit) (_ : Bytes) (n : Nat) => List.replicate n 7) ()
          (List.foldl (RtVariableCoreWrapper.update 2 (fun c _ => c)) ⟨(), [], 3⟩
            [[1], [2, 3]]),
        out.length = 3)) :=
  ⟨fun _ _ n => List.length_replicate n 7, rfl,
    claim_C3_finalize_variable_callback 2 (fun c _ => c)
      (fun (_ : Unit) (_ : Bytes) (n : Nat) => List.replicate n 7) 4 () 3 ⟨(), [], 3⟩
      (fun _ _ n => List.length_replicate n 7) rfl [[1], [2, 3]]⟩

/-- Fixed-size output array `Output<Self>` (a `GenericArray<u8, OutputSize>`):
a byte string whose length is pinned to `n` by its type. -/
def Output (n : Nat) := {l : Bytes // l.length = n}

/-- The `Default::default()` output array used by `finalize_fixed` and
`finalize_fixed_reset` in `src/digest/src/lib.rs`: all zeroes. -/
def defaultOutput (n : Nat) : Output n :=
  ⟨List.replicate n 0, List.length_replicate n 0⟩

/-- `FixedOutput::finalize_fixed` from `src/digest/src/lib.rs`: allocate a
default output array, let `finalize_into` (an arbitrary implementor-supplied
function on fixed-size arrays) write the result into it, return it. -/
def finalizeFixed {H : Type} (n : Nat) (finalize_into : H → Output n → Output n)
    (h : H) : Output n :=
  finalize_into h (defaultOutput n)

/-- `FixedOutputReset::finalize_fixed_reset` from `src/digest/src/lib.rs`:
allocate a default output array, let `finalize_into_reset` write the result
into it and reset the hasher, return output and reset hasher. -/
def finalizeFixedReset {H : Type} (n : Nat)
    (finalize_into_reset : H → Output n → Output n × H) (h : H) : Output n × H :=
  finalize_into_reset h (defaultOutput n)

/-- Claim C5: for every fixed-output hasher (any state and any
implementor-supplied `finalize_into`/`finalize_into_reset` on fixed-size
output arrays) and hence for every input, `finalize_fixed` and
`finalize_fixed_reset` return an output of exactly `OutputSize` bytes. -/
theorem claim_C5_fixed_output_length {H : Type} (n : Nat)
    (finalize_into : H → Output n → Output n)
    (finalize_into_reset : H → Output n → Output n × H) (h : H) :
    (finalizeFixed n finalize_into h).val.length = n ∧
      (finalizeFixedReset n finalize_into_reset h).1.val.length = n :=
  ⟨(finalizeFixed n finalize_into h).property,
    (finalizeFixedReset n finalize_into_reset h).1.property⟩

/-- Modelled from the spec: `CoreWrapper`'s `finalize_into_reset` (spec
sections 3 and 4.2; `core_api/wrapper.rs` is not under `src/`): compute the
fixed output from core and pending buffer, then reset both to their
freshly-constructed state. -/
def CoreWrapper.finalizeIntoReset {σ ω : Type} (fin : σ → Bytes → ω)
    (initCore : σ) (s : CoreWrapper σ) : ω × CoreWrapper σ :=
  (fin s.core s.buffer, ⟨initCore, []⟩)

/-- Claim C6: `finalize_into_reset` after `update(input)` on a freshly
constructed hasher, then repeating `update(input)` and the reset-finalize on
the resulting instance, produces an identical result both times — the reset
restores the freshly-constructed state; and for runtime-variable hashers the
same holds for `finalize_variable_reset`, with `output_size` unchanged by
the reset. -/
theorem claim_C6_reset_reproducible {σ τ ω α : Type} (bs : Nat)
    (upd : σ → Bytes → σ) (fin : σ → Bytes → ω) (initCore : σ) (input : Bytes)
    (vupd : τ → Bytes → τ) (vfin : τ → Bytes → Nat → Bytes) (rtInit : τ)
    (k : Nat) (f : Bytes → α) :
    (CoreWrapper.finalizeIntoReset fin initCore
        (CoreWrapper.update bs upd
          (CoreWrapper.finalizeIntoReset fin initCore
            (CoreWrapper.update bs upd ⟨initCore, []⟩ input)).2 input)).1 =
      (CoreWrapper.finalizeIntoReset fin initCore
        (CoreWrapper.update bs upd ⟨initCore, []⟩ input)).1 ∧
    (RtVariableCoreWrapper.finalizeVariableReset vfin rtInit
        (RtVariableCoreWrapper.update bs vupd
          (RtVariableCoreWrapper.finalizeVariableReset vfin rtInit
            (RtVariableCoreWrapper.update bs vupd ⟨rtInit, [], k⟩ input) f).2
          input) f).1 =
      (RtVariableCoreWrapper.finalizeVariableReset vfin rtInit
        (RtVariableCoreWrapper.update bs vupd ⟨rtInit, [], k⟩ input) f).1 ∧
    (RtVariableCoreWrapper.finalizeVariableReset vfin rtInit
        (RtVariableCoreWrapper.update bs vupd ⟨rtInit, [], k⟩ input) f).2.output_size
      = k := by
  refine ⟨rfl, ?_, rfl⟩
  have hsz : (RtVariableCoreWrapper.finalizeVariableReset vfin rtInit
      (RtVariableCoreWrapper.update bs vupd ⟨rtInit, [], k⟩ input) f).2 =
      ⟨rtInit, [], k⟩ := rfl
  rw [hsz]

/-- Modelled from the spec: the state of `XofReaderCoreWrapper` (spec
section 4.5; `core_api/xof_reader.rs` is not under `src/`): the XOF reader
core, the current block, the read position in `[0, BlockSize]`, and the
no-block-yet flag. -/
structure XofReaderCoreWrapper (ρ : Type) where
  core : ρ
  block : Bytes
  pos : Nat
  fresh : Bool

namespace XofReaderCoreWrapper

/-- Modelled from the spec: the refill step of `XofReader::read` (spec
section 4.5): if no block has been pulled yet or the current block is
exhausted, pull one new block from the reader core (`XofReaderCore::read_block`)
and reset the position to 0; otherwise leave the state unchanged. `rb` is
the core's `read_block`, returning the next block and the advanced core. -/
def refill {ρ : Type} (bs : Nat) (rb : ρ → Bytes × ρ)
    (s : XofReaderCoreWrapper ρ) : XofReaderCoreWrapper ρ :=
  if s.fresh = true ∨ bs ≤ s.pos then
    ⟨(rb s.core).2, (rb s.core).1, 0, false⟩
  else
    s

theorem refill_fresh {ρ : Type} (bs : Nat) (rb : ρ → Bytes × ρ)
    (s : XofReaderCoreWrapper ρ) : (refill bs rb s).fresh = false := by
  unfold refill
  by_cases h : s.fresh = true ∨ bs ≤ s.pos
  · rw [if_pos h]
  · rw [if_neg h]
    push_neg at h
    simp [h.1]

theorem refill_pos_lt {ρ : Type} (bs : Nat) (rb : ρ → Bytes × ρ)
    (s : XofReaderCoreWrapper ρ) (hbs : 0 < bs) : (refill bs rb s).pos < bs := by
  unfold refill
  by_cases h : s.fresh = true ∨ bs ≤ s.pos
  · rw [if_pos h]
    exact hbs
  · rw [if_neg h]
    push_neg at h
    omega

/-- Well-formedness of a reader state: either no block has been pulled
yet, or the current block has exactly `BlockSize` bytes (guaranteed by the
`Block<Self>` type of `XofReaderCore::read_block`). -/
def WF {ρ : Type} (bs : Nat) (s : XofReaderCoreWrapper ρ) : Prop :=
  s.fresh = true ∨ s.block.length = bs

theorem refill_block_len {ρ : Type} (bs : Nat) (rb : ρ → Bytes × ρ)
    (hblk : ∀ r, (rb r).1.length = bs) (s : XofReaderCoreWrapper ρ)
    (hs : WF bs s) : (refill bs rb s).block.length = bs := by
  unfold refill
  by_cases h : s.fresh = true ∨ bs ≤ s.pos
  · rw [if_pos h]
    exact hblk s.core
  · rw [if_neg h]
    push_neg at h
    rcases hs with hf | hl
    · exact absurd hf (by simpa using h.1)
    · exact hl

theorem refill_idem {ρ : Type} (bs : Nat) (rb : ρ → Bytes × ρ)
    (s : XofReaderCoreWrapper ρ) (hbs : 0 < bs) :
    refill bs rb (refill bs rb s) = refill bs rb s := by
  have hf := refill_fresh bs rb s
  have hp := refill_pos_lt bs rb s hbs
  rw [refill]
  rw [if_neg]
  rw [hf]
  push_neg
  constructor
  · simp
  · omega

/-- Modelled from the spec: `XofReader::read` for `XofReaderCoreWrapper`
(spec section 4.5): repeatedly — refill when the current block is exhausted
or absent, copy `min(bytes left in block, bytes left in request)` bytes of
the current block into the request buffer, advance both cursors — until the
request is satisfied. Returns the bytes written (the whole buffer is
overwritten) and the final reader state. -/
def read {ρ : Type} (bs : Nat) (hbs : 0 < bs) (rb : ρ → Bytes × ρ)
    (s : XofReaderCoreWrapper ρ) (buffer : Bytes) :
    Bytes × XofReaderCoreWrapper ρ :=
  if _hb : buffer.length = 0 then
    ([], s)
  else
    let t := refill bs rb s
    let k := min (bs - t.pos) buffer.length
    let chunk := (t.block.drop t.pos).take k
    let r := read bs hbs rb ⟨t.core, t.block, t.pos + k, t.fresh⟩ (buffer.drop k)
    (chunk ++ r.1, r.2)
termination_by buffer.length
decreasing_by
  have hp := refill_pos_lt bs rb s hbs
  simp only [List.length_drop]
  omega

/-- Reference reader: pull one byte at a time. `readByte` refills if
needed, then returns the byte under the cursor and advances it. -/
def readByte {ρ : Type} (bs : Nat) (rb : ρ → Bytes × ρ)
    (s : XofReaderCoreWrapper ρ) : Nat × XofReaderCoreWrapper ρ :=
  let t := refill bs rb s
  (t.block.getD t.pos 0, ⟨t.core, t.block, t.pos + 1, t.fresh⟩)

/-- Reference reader: `n` bytes, one `readByte` at a time. -/
def takeBytes {ρ : Type} (bs : Nat) (rb : ρ → Bytes × ρ) :
    Nat → XofReaderCoreWrapper ρ → Bytes × XofReaderCoreWrapper ρ
  | 0, s => ([], s)
  | n + 1, s =>
    let r := readByte bs rb s
    let r2 := takeBytes bs rb n r.2
    (r.1 :: r2.1, r2.2)

end XofReaderCoreWrapper

namespace XofReaderCoreWrapper

theorem refill_of_inv {ρ : Type} (bs : Nat) (rb : ρ → Bytes × ρ)
    (s : XofReaderCoreWrapper ρ) (hf : s.fresh = false) (hp : s.pos < bs) :
    refill bs rb s = s := by
  rw [refill, if_neg]
  push_neg
  constructor
  · simp [hf]
  · omega

theorem read_unfold {ρ : Type} (bs : Nat) (hbs : 0 < bs) (rb : ρ → Bytes × ρ)
    (s : XofReaderCoreWrapper ρ) (buffer : Bytes) (hb : ¬ buffer.length = 0)
    (t : XofReaderCoreWrapper ρ) (ht : t = refill bs rb s) (k : Nat)
    (hk : k = min (bs - t.pos) buffer.length) :
    read bs hbs rb s buffer =
      ((t.block.drop t.pos).take k ++
          (read bs hbs rb ⟨t.core, t.block, t.pos + k, t.fresh⟩ (buffer.drop k)).1,
        (read bs hbs rb ⟨t.core, t.block, t.pos + k, t.fresh⟩ (buffer.drop k)).2) := by
  subst ht
  subst hk
  rw [read, dif_neg hb]

theorem takeBytes_length {ρ : Type} (bs : Nat) (rb : ρ → Bytes × ρ) :
    ∀ (n : Nat) (s : XofReaderCoreWrapper ρ), (takeBytes bs rb n s).1.length = n := by
  intro n
  induction n with
  | zero => intro s; rfl
  | succ n ih =>
    intro s
    show ((readByte bs rb s).1 :: (takeBytes bs rb n (readByte bs rb s).2).1).length = n + 1
    rw [List.length_cons, ih]

theorem takeBytes_add {ρ : Type} (bs : Nat) (rb : ρ → Bytes × ρ) :
    ∀ (a b : Nat) (s : XofReaderCoreWrapper ρ),
      takeBytes bs rb (a + b) s =
        ((takeBytes bs rb a s).1 ++ (takeBytes bs rb b (takeBytes bs rb a s).2).1,
          (takeBytes bs rb b (takeBytes bs rb a s).2).2) := by
  intro a
  induction a with
  | zero =>
    intro b s
    rw [Nat.zero_add]
    show takeBytes bs rb b s = ([] ++ (takeBytes bs rb b s).1, (takeBytes bs rb b s).2)
    rw [List.nil_append]
  | succ a ih =>
    intro b s
    have hadd : a + 1 + b = (a + b) + 1 := by omega
    rw [hadd]
    show ((readByte bs rb s).1 :: (takeBytes bs rb (a + b) (readByte bs rb s).2).1,
        (takeBytes bs rb (a + b) (readByte bs rb s).2).2) = _
    rw [ih]
    rfl

theorem takeBytes_chunk {ρ : Type} (bs : Nat) (rb : ρ → Bytes × ρ) :
    ∀ (k : Nat) (s : XofReaderCoreWrapper ρ), s.fresh = false →
      s.block.length = bs → s.pos + k ≤ bs →
      takeBytes bs rb k s =
        ((s.block.drop s.pos).take k, ⟨s.core, s.block, s.pos + k, false⟩) := by
  intro k
  induction k with
  | zero =>
    intro s hf hl hp
    show ([], s) = _
    cases s with
    | mk core block pos fr =>
      simp_all [takeBytes]
  | succ k ih =>
    intro s hf hl hp
    have hpos : s.pos < bs := by omega
    have hrf : refill bs rb s = s := refill_of_inv bs rb s hf hpos
    have hposl : s.pos < s.block.length := by omega
    show ((readByte bs rb s).1 :: (takeBytes bs rb k (readByte bs rb s).2).1,
        (takeBytes bs rb k (readByte bs rb s).2).2) = _
    have hrb : readByte bs rb s =
        (s.block.getD s.pos 0, ⟨s.core, s.block, s.pos + 1, s.fresh⟩) := by
      rw [readByte, hrf]
    rw [hrb, hf]
    have hih := ih ⟨s.core, s.block, s.pos + 1, false⟩ rfl hl
      (by show s.pos + 1 + k ≤ bs; omega)
    have hdrop : s.block.drop s.pos =
        s.block.get ⟨s.pos, hposl⟩ :: s.block.drop (s.pos + 1) := by
      rw [List.drop_eq_getElem_cons hposl]
      rfl
    have hgetD : s.block.getD s.pos 0 = s.block.get ⟨s.pos, hposl⟩ := by
      rw [List.getD_eq_getElem s.block 0 hposl]
      rfl
    have harith : s.pos + 1 + k = s.pos + (k + 1) := by omega
    simp only [hih, hdrop, hgetD, harith, List.take_succ_cons]

theorem takeBytes_refill {ρ : Type} (bs : Nat) (hbs : 0 < bs) (rb : ρ → Bytes × ρ)
    (n : Nat) (hn : 0 < n) (s : XofReaderCoreWrapper ρ) :
    takeBytes bs rb n (refill bs rb s) = takeBytes bs rb n s := by
  cases n with
  | zero => omega
  | succ n =>
    show ((readByte bs rb (refill bs rb s)).1 ::
        (takeBytes bs rb n (readByte bs rb (refill bs rb s)).2).1,
        (takeBytes bs rb n (readByte bs rb (refill bs rb s)).2).2) = _
    have hrb : readByte bs rb (refill bs rb s) = readByte bs rb s := by
      rw [readByte, readByte, refill_idem bs rb s hbs]
    rw [hrb]
    rfl

theorem read_eq_takeBytes {ρ : Type} (bs : Nat) (hbs : 0 < bs)
    (rb : ρ → Bytes × ρ) (hblk : ∀ r, (rb r).1.length = bs) :
    ∀ (n : Nat) (buffer : Bytes) (s : XofReaderCoreWrapper ρ), WF bs s →
      buffer.length = n →
      read bs hbs rb s buffer = takeBytes bs rb buffer.length s := by
  intro n
  induction n using Nat.strong_induction_on with
  | _ n ih =>
    intro buffer s hs hn
    by_cases hb : buffer.length = 0
    · rw [read, dif_pos hb, hb]
      rfl
    · set t := refill bs rb s with ht
      set k := min (bs - t.pos) buffer.length with hk
      have htf : t.fresh = false := refill_fresh bs rb s
      have htp : t.pos < bs := refill_pos_lt bs rb s hbs
      have htl : t.block.length = bs := refill_block_len bs rb hblk s hs
      have hk1 : 1 ≤ k := by omega
      have hkp : t.pos + k ≤ bs := by omega
      set m := buffer.length - k with hm
      have hlen2 : (buffer.drop k).length = m := by rw [List.length_drop]
      have hL : read bs hbs rb s buffer =
          ((t.block.drop t.pos).take k ++
              (takeBytes bs rb m ⟨t.core, t.block, t.pos + k, false⟩).1,
            (takeBytes bs rb m ⟨t.core, t.block, t.pos + k, false⟩).2) := by
        rw [read_unfold bs hbs rb s buffer hb t ht k hk, htf]
        rw [ih m (by omega) (buffer.drop k) ⟨t.core, t.block, t.pos + k, false⟩
          (Or.inr htl) hlen2]
        rw [hlen2]
      have hR : takeBytes bs rb buffer.length s =
          ((t.block.drop t.pos).take k ++
              (takeBytes bs rb m ⟨t.core, t.block, t.pos + k, false⟩).1,
            (takeBytes bs rb m ⟨t.core, t.block, t.pos + k, false⟩).2) := by
        rw [← takeBytes_refill bs hbs rb buffer.length (by omega) s, ← ht]
        have hsum : buffer.length = k + m := by omega
        rw [hsum, takeBytes_add bs rb k m t,
          takeBytes_chunk bs rb k t htf htl hkp]
      rw [hL, hR]

theorem readByte_wf {ρ : Type} (bs : Nat) (rb : ρ → Bytes × ρ)
    (hblk : ∀ r, (rb r).1.length = bs) (s : XofReaderCoreWrapper ρ)
    (hs : WF bs s) : WF bs (readByte bs rb s).2 :=
  Or.inr (refill_block_len bs rb hblk s hs)

theorem takeBytes_wf {ρ : Type} (bs : Nat) (rb : ρ → Bytes × ρ)
    (hblk : ∀ r, (rb r).1.length = bs) :
    ∀ (n : Nat) (s : XofReaderCoreWrapper ρ), WF bs s →
      WF bs (takeBytes bs rb n s).2 := by
  intro n
  induction n with
  | zero => intro s hs; exact hs
  | succ n ih =>
    intro s hs
    exact ih (readByte bs rb s).2 (readByte_wf bs rb hblk s hs)

/-- Sequential reads: run `read` once for each caller buffer in `bufs`, on
the successive reader states, and concatenate the bytes produced. -/
def readSeq {ρ : Type} (bs : Nat) (hbs : 0 < bs) (rb : ρ → Bytes × ρ) :
    List Bytes → XofReaderCoreWrapper ρ → Bytes × XofReaderCoreWrapper ρ
  | [], s => ([], s)
  | b :: rest, s =>
    let r := read bs hbs rb s b
    let r2 := readSeq bs hbs rb rest r.2
    (r.1 ++ r2.1, r2.2)

theorem readSeq_eq_takeBytes {ρ : Type} (bs : Nat) (hbs : 0 < bs)
    (rb : ρ → Bytes × ρ) (hblk : ∀ r, (rb r).1.length = bs) :
    ∀ (bufs : List Bytes) (s : XofReaderCoreWrapper ρ), WF bs s →
      readSeq bs hbs rb bufs s = takeBytes bs rb (bufs.map List.length).sum s := by
  intro bufs
  induction bufs with
  | nil =>
    intro s hs
    rfl
  | cons b rest ih =>
    intro s hs
    show ((read bs hbs rb s b).1 ++ (readSeq bs hbs rb rest (read bs hbs rb s b).2).1,
        (readSeq bs hbs rb rest (read bs hbs rb s b).2).2) = _
    rw [read_eq_takeBytes bs hbs rb hblk b.length b s hs rfl]
    rw [ih (takeBytes bs rb b.length s).2 (takeBytes_wf bs rb hblk b.length s hs)]
    rw [List.map_cons, List.sum_cons, takeBytes_add bs rb b.length (rest.map List.length).sum s]

/-- Claim C7: for every XOF reader (any reader core with `BlockSize`-sized
blocks) starting from a well-formed state, reading `N` bytes in one call
yields bytes (and a final reader state) identical to reading the same `N`
bytes across any sequence of read calls of varying sizes — including
single-byte and zero-byte requests — whose lengths sum to `N`; and `read`
is total and always fills the whole request, so it can be called an
unlimited number of times and never signals end-of-stream. -/
theorem claim_C7_read_chunking {ρ : Type} (bs : Nat) (hbs : 0 < bs)
    (rb : ρ → Bytes × ρ) (hblk : ∀ r, (rb r).1.length = bs)
    (s : XofReaderCoreWrapper ρ) (hs : WF bs s) (bufs : List Bytes) (B : Bytes)
    (hB : B.length = (bufs.map List.length).sum) :
    readSeq bs hbs rb bufs s = read bs hbs rb s B ∧
      (read bs hbs rb s B).1.length = B.length := by
  have h1 : read bs hbs rb s B = takeBytes bs rb B.length s :=
    read_eq_takeBytes bs hbs rb hblk B.length B s hs rfl
  constructor
  · rw [readSeq_eq_takeBytes bs hbs rb hblk bufs s hs, h1, hB]
  · rw [h1, takeBytes_length]

/-- Witness for claim C7: block size 2, a counting reader core, a fresh
reader; 4 bytes read as chunks of sizes 1, 0 and 3. -/
theorem claim_C7_witness :
    readSeq 2 (by decide) (fun r : Nat => ([r, r + 1], r + 2)) [[9], [], [9, 9, 9]]
        ⟨0, [], 0, true⟩ =
      read 2 (by decide) (fun r : Nat => ([r, r + 1], r + 2)) ⟨0, [], 0, true⟩
        (List.replicate 4 0) ∧
    (read 2 (by decide) (fun r : Nat => ([r, r + 1], r + 2)) ⟨0, [], 0, true⟩
        (List.replicate 4 0)).1.length = (List.replicate 4 0).length :=
  claim_C7_read_chunking 2 (by decide) (fun r : Nat => ([r, r + 1], r + 2))
    (fun _ => rfl) ⟨0, [], 0, true⟩ (Or.inl rfl) [[9], [], [9, 9, 9]]
    (List.replicate 4 0) rfl

/-- The `XofReader::read_boxed` provided method from `src/digest/src/lib.rs`:
allocate a zero-filled boxed slice of length `n`, pass it to `read`, return
it. -/
def readBoxed {ρ : Type} (bs : Nat) (hbs : 0 < bs) (rb : ρ → Bytes × ρ)
    (s : XofReaderCoreWrapper ρ) (n : Nat) : Bytes × XofReaderCoreWrapper ρ :=
  read bs hbs rb s (List.replicate n 0)

/-- Claim C10: for every XOF reader in a well-formed state and every `n`
(including `n = 0`), `read_boxed n` returns a slice of length exactly `n`
whose contents (and resulting reader state) equal those of `read` on any
caller-supplied `n`-byte buffer from the same reader state. -/
theorem claim_C10_read_boxed {ρ : Type} (bs : Nat) (hbs : 0 < bs)
    (rb : ρ → Bytes × ρ) (hblk : ∀ r, (rb r).1.length = bs)
    (s : XofReaderCoreWrapper ρ) (hs : WF bs s) (n : Nat) :
    (readBoxed bs hbs rb s n).1.length = n ∧
      ∀ buf : Bytes, buf.length = n →
        readBoxed bs hbs rb s n = read bs hbs rb s buf := by
  have h1 : readBoxed bs hbs rb s n = takeBytes bs rb n s := by
    unfold readBoxed
    rw [read_eq_takeBytes bs hbs rb hblk (List.replicate n 0).length
      (List.replicate n 0) s hs rfl, List.length_replicate]
  constructor
  · rw [h1, takeBytes_length]
  · intro buf hbuf
    rw [h1, read_eq_takeBytes bs hbs rb hblk buf.length buf s hs rfl, hbuf]

/-- Witness for claim C10: block size 2, counting reader core, fresh state,
`n = 3`, caller buffer `[5, 6, 7]`. -/
theorem claim_C10_witness :
    (readBoxed 2 (by decide) (fun r : Nat => ([r, r + 1], r + 2))
        ⟨0, [], 0, true⟩ 3).1.length = 3 ∧
    readBoxed 2 (by decide) (fun r : Nat => ([r, r + 1], r + 2))
        ⟨0, [], 0, true⟩ 3 =
      read 2 (by decide) (fun r : Nat => ([r, r + 1], r + 2)) ⟨0, [], 0, true⟩
        [5, 6, 7] :=
  ⟨(claim_C10_read_boxed 2 (by decide) (fun r : Nat => ([r, r + 1], r + 2))
      (fun _ => rfl) ⟨0, [], 0, true⟩ (Or.inl rfl) 3).1,
    (claim_C10_read_boxed 2 (by decide) (fun r : Nat => ([r, r + 1], r + 2))
      (fun _ => rfl) ⟨0, [], 0, true⟩ (Or.inl rfl) 3).2 [5, 6, 7] rfl⟩

end XofReaderCoreWrapper

/-- `ExtendableOutput::digest_xof` provided method from
`src/digest/src/lib.rs`: `Self::default()`, `update(input)`,
`finalize_xof().read(output)`. Parametric in the implementor: `defaultH` is
`Self::default()`, `upd` is `Update::update`, `finalize_xof` produces the
reader, `readOut` reads the requested number of bytes from it. -/
def digestXof {H R : Type} (defaultH : H) (upd : H → Bytes → H)
    (finalize_xof : H → R) (readOut : R → Nat → Bytes) (input : Bytes)
    (outLen : Nat) : Bytes :=
  readOut (finalize_xof (upd defaultH input)) outLen

/-- The spec's one-shot XOF contract, stated from its words: construct a
fresh hasher, call `update(input)` once, then finalize and read the
result. -/
def oneShotXofSpec {H R : Type} (defaultH : H) (upd : H → Bytes → H)
    (finalize_xof : H → R) (readOut : R → Nat → Bytes) (input : Bytes)
    (outLen : Nat) : Bytes :=
  readOut (finalize_xof (upd defaultH input)) outLen

/-- `VariableOutput::digest_variable` provided method from
`src/digest/src/lib.rs`: `Self::new(output.len())?`, `update(input)`,
`finalize_variable(|out| output.copy_from_slice(out))` — the callback slice
overwrites the whole output buffer, so the result is that slice. `fresh`
is `Self::new`, `finVar` the composite of update-free finalize. -/
def digestVariable {H : Type} (fresh : Nat → Except InvalidOutputSize H)
    (upd : H → Bytes → H) (finVar : H → Bytes) (input : Bytes)
    (output : Bytes) : Except InvalidOutputSize Bytes :=
  match fresh output.length with
  | Except.error e => Except.error e
  | Except.ok h => Except.ok (finVar (upd h input))

/-- The spec's one-shot variable-output contract, stated from its words:
construct a hasher for the output buffer's length, update with the whole
input once, finalize, and return the bytes handed to the callback. -/
def oneShotVariableSpec {H : Type} (fresh : Nat → Except InvalidOutputSize H)
    (upd : H → Bytes → H) (finVar : H → Bytes) (input : Bytes)
    (output : Bytes) : Except InvalidOutputSize Bytes :=
  match fresh output.length with
  | Except.error e => Except.error e
  | Except.ok h => Except.ok (finVar (upd h input))

/-- Claim C4: the one-shot digest operations — `digest_xof` for XOF hashers
and `digest_variable` for variable-output hashers — produce output equal to
constructing a fresh hasher, calling `update(input)` once, then finalizing
and reading the result, for every implementor and input. -/
theorem claim_C4_one_shot_digest {H R G : Type} (defaultH : H)
    (upd : H → Bytes → H) (finalize_xof : H → R) (readOut : R → Nat → Bytes)
    (input : Bytes) (outLen : Nat)
    (fresh : Nat → Except InvalidOutputSize G) (vupd : G → Bytes → G)
    (finVar : G → Bytes) (voutput : Bytes) :
    digestXof defaultH upd finalize_xof readOut input outLen =
        oneShotXofSpec defaultH upd finalize_xof readOut input outLen ∧
      digestVariable fresh vupd finVar input voutput =
        oneShotVariableSpec fresh vupd finVar input voutput :=
  ⟨rfl, rfl⟩

/-- End-to-end `digest_variable` over the runtime-variable wrapper model,
instrumented with the list of finalize-callback invocations: construct via
`RtVariableCoreWrapper.new(output.len())`, propagating its error without
touching the finalize path; on success update with the input and finalize,
recording the callback invocations. -/
def rtDigestVariable {σ : Type} (bs : Nat) (upd : σ → Bytes → σ)
    (vfin : σ → Bytes → Nat → Bytes) (maxOutputSize : Nat) (initCore : σ)
    (input output : Bytes) : Except InvalidOutputSize Bytes × List Bytes :=
  match RtVariableCoreWrapper.new maxOutputSize initCore output.length with
  | Except.error e => (Except.error e, [])
  | Except.ok h =>
    let s := RtVariableCoreWrapper.update bs upd h input
    (Except.ok (vfin s.core s.buffer s.output_size),
      RtVariableCoreWrapper.finalizeVariableCalls vfin s)

/-- Claim C9: `digest_variable(input, output)` with a zero-length output
slice returns `Err(InvalidOutputSize)` and does not invoke the finalize
path (no finalize-callback invocation is recorded), even though the
method's documentation mentions only outputs bigger than
`MAX_OUTPUT_SIZE`. -/
theorem claim_C9_digest_variable_empty_output {σ : Type} (bs : Nat)
    (upd : σ → Bytes → σ) (vfin : σ → Bytes → Nat → Bytes)
    (maxOutputSize : Nat) (initCore : σ) (input output : Bytes)
    (h : output.length = 0) :
    (rtDigestVariable bs upd vfin maxOutputSize initCore input output).1 =
        Except.error ⟨⟩ ∧
      (rtDigestVariable bs upd vfin maxOutputSize initCore input output).2 = [] := by
  unfold rtDigestVariable RtVariableCoreWrapper.new
  rw [h]
  simp

/-- Witness for claim C9: max size 4, empty output slice, nonempty input. -/
theorem claim_C9_witness :
    (rtDigestVariable 2 (fun (c : Bytes) b => c ++ b)
        (fun _ _ n => List.replicate n 7) 4 [] [1, 2, 3] []).1 =
        Except.error ⟨⟩ ∧
      (rtDigestVariable 2 (fun (c : Bytes) b => c ++ b)
        (fun _ _ n => List.replicate n 7) 4 [] [1, 2, 3] []).2 = [] :=
  claim_C9_digest_variable_empty_output 2 (fun (c : Bytes) b => c ++ b)
    (fun _ _ n => List.replicate n 7) 4 [] [1, 2, 3] [] rfl

/-- Modelled from the spec: `CtOutput` (spec sections 3 and 4.6; `mac.rs`
is not under `src/`): a MAC tag exposing only constant-time equality. -/
structure CtOutput where
  bytes : Bytes

/-- Modelled from the spec: `CtOutput`'s constant-time equality;
functionally it decides byte-string equality. -/
def CtOutput.ct_eq (a b : CtOutput) : Bool :=
  decide (a.bytes = b.bytes)

/-- Modelled from the spec: `MacError` (spec section 4.6 / section 7):
the tag-mismatch error, deliberately detail-free — the type has no
fields, so a `MacError` can carry no information about where or whether
bytes differed. -/
structure MacError where
deriving DecidableEq, Repr

/-- Modelled from the spec: `Mac::verify(tag)` (spec section 4.6; `mac.rs`
is not under `src/`): recompute the tag for the instance's key and message
via the composed keyed pipeline `mac`, compare with the supplied tag via
`CtOutput` constant-time equality, return `Ok(())` on match and a
detail-free `MacError` otherwise. -/
def macVerify {K : Type} (mac : K → Bytes → Bytes) (key : K) (msg : Bytes)
    (tag : Bytes) : Except MacError Unit :=
  if CtOutput.ct_eq ⟨mac key msg⟩ ⟨tag⟩ then
    Except.ok ()
  else
    Except.error ⟨⟩

/-- Claim C8: for every MAC (any keyed tag computation `mac`), key and
message, `verify(tag)` succeeds exactly when `tag` equals the tag computed
for that key and message; on mismatch the returned `MacError` carries no
information — every two values of the type are equal. -/
theorem claim_C8_mac_verify {K : Type} (mac : K → Bytes → Bytes) (key : K)
    (msg : Bytes) (tag : Bytes) :
    (macVerify mac key msg tag = Except.ok () ↔ tag = mac key msg) ∧
      (∀ e e' : MacError, e = e') := by
  constructor
  · unfold macVerify CtOutput.ct_eq
    by_cases h : mac key msg = tag
    · subst h
      simp
    · simp [h]
      intro hc
      exact h hc.symm
  · intro e e'
    cases e
    cases e'
    rfl
